import Mathlib

/-!
Verification development for the PathFinder web crawler (Go).

The definitions below are a shallow embedding of the crawler's URL model,
scope regexes, canonicalization, emission callbacks and helper string
routines, translated from `spider.go`, `main.go` and `render.go`.
Strings are modelled as `List Char`; Go's `url.URL` is modelled by the
`URL` structure below, restricted to absolute http(s)-style URLs without
user info or IPv6 hosts (the only shapes the crawler's scope machinery is
exercised on).
-/

namespace PathFinder

abbrev Chars := List Char

/-- Model of Go `url.URL` restricted to the fields the crawler touches:
scheme, host, optional port, path, optional raw query, optional fragment. -/
structure URL where
  scheme : Chars
  host : Chars
  port : Option Chars
  path : Chars
  query : Option Chars
  fragment : Option Chars
deriving Repr, DecidableEq

/-- The `:port` part of Go `url.URL.Host`, empty when no port is set. -/
def portStr (u : URL) : Chars :=
  match u.port with
  | none => []
  | some p => ':' :: p

/-- Go `url.URL.Host`: hostname plus optional `:port`. -/
def hostPort (u : URL) : Chars :=
  u.host ++ portStr u

def queryStr (u : URL) : Chars :=
  match u.query with
  | none => []
  | some q => '?' :: q

def fragmentStr (u : URL) : Chars :=
  match u.fragment with
  | none => []
  | some f => '#' :: f

/-- The separator `://` between scheme and authority in `url.URL.String()`. -/
def schemeSep : Chars := [':', '/', '/']

/-- Model of Go `url.URL.String()` for absolute http(s)-style URLs:
`scheme://host[:port]path[?query][#fragment]`. -/
def urlString (u : URL) : Chars :=
  u.scheme ++ schemeSep ++ hostPort u ++ u.path ++ queryStr u ++ fragmentStr u

def httpChars : Chars := ['h', 't', 't', 'p']
def httpsChars : Chars := ['h', 't', 't', 'p', 's']

/-- Strip `pre` from the front of `s`, returning the remainder when `pre`
is a prefix of `s`. -/
def dropPre : Chars → Chars → Option Chars
  | [], s => some s
  | _ :: _, [] => none
  | p :: ps, c :: cs => if p = c then dropPre ps cs else none

/-- Embeds the tail `(?::\d+)?(?:/|$)` of the scope regexes: at the current
position there is either the end of the string, a `/`, or a `:` followed by
one or more digits followed by `/` or the end. -/
def headSlashOrNil : Chars → Bool
  | [] => true
  | c :: _ => c = '/'

def portEndOk (s : Chars) : Bool :=
  match s with
  | [] => true
  | c :: rest =>
    if c = '/' then true
    else if c = ':' then
      decide (rest.takeWhile Char.isDigit ≠ []) &&
        headSlashOrNil (rest.dropWhile Char.isDigit)
    else false

/-- Embeds `<quoted-host>(?::\d+)?(?:/|$)`: the literal (regex-quoted) scope
host, then the port/end tail. -/
def hostTail (host : Chars) (s : Chars) : Bool :=
  match dropPre host s with
  | some r => portEndOk r
  | none => false

/-- Embeds `([^.]+\.)*<quoted-host>(?::\d+)?(?:/|$)`: zero or more groups,
each one-or-more non-dot characters followed by a literal dot, then the
host and tail.  Each group necessarily ends at the next dot, so the
reachable positions are exactly the suffixes after 0, 1, 2, … dots with all
skipped segments nonempty; `fuel` bounds the recursion. -/
def labelsHostF (host : Chars) : Nat → Chars → Bool
  | 0, _ => false
  | fuel + 1, s =>
    hostTail host s ||
      (match s.dropWhile (· ≠ '.') with
       | c :: rest =>
         c = '.' && decide (s.takeWhile (· ≠ '.') ≠ []) &&
           labelsHostF host fuel rest
       | [] => false)

def labelsHost (host : Chars) (s : Chars) : Bool :=
  labelsHostF host (s.length + 1) s

/-- Strip a leading `https://` or `http://` (the `^https?://` part of every
scope regex built in `NewCrawler`). -/
def stripHttpScheme (s : Chars) : Option Chars :=
  match dropPre (httpsChars ++ schemeSep) s with
  | some r => some r
  | none => dropPre (httpChars ++ schemeSep) s

/-- The compiled scope pattern from `NewCrawler`:
`^https?://([^.]+\.)*<host>(?::\d+)?(?:/|$)` when `allowSubs` is set,
`^https?://<host>(?::\d+)?(?:/|$)` otherwise, applied to a whole URL
string (Go `MatchString`: a match anywhere suffices, but `^` anchors it). -/
def matchScope (allowSubs : Bool) (host : Chars) (s : Chars) : Bool :=
  match stripHttpScheme s with
  | some rest => if allowSubs then labelsHost host rest else hostTail host rest
  | none => false

/-- A compiled URL filter, as consumed by `InScope`. -/
abbrev Pattern := Chars → Bool

/-- `InScope` from spider.go: true iff at least one filter matches the
URL's full string. -/
def InScope (u : URL) (regexps : List Pattern) : Bool :=
  regexps.any (fun r => r (urlString u))

/-- The URL filter list `NewCrawler` installs for a bare-domain target
(`ScopeOverride` with `AllowSubs`): the single apex+subdomains pattern. -/
def autoScopePatterns (apex : Chars) : List Pattern :=
  [matchScope true apex]

/-- The URL filter list `NewCrawler` installs for a full-URL target without
`subs`: the single exact-host pattern. -/
def hostScopePatterns (host : Chars) : List Pattern :=
  [matchScope false host]

/-! ### URL parsing (model of Go `net/url.Parse`) -/

def authChar (c : Char) : Bool := c ≠ '/' && c ≠ '?' && c ≠ '#'

/-- Model of Go `url.Parse` restricted to absolute http(s)-style URLs
without user info or bracketed IPv6 hosts: scheme up to `://`, authority up
to `/`, `?` or `#`, host/port split at the colon, then path, query and
fragment.  Strings not of that shape parse to `none`. -/
def parseURL (s : Chars) : Option URL :=
  let scheme := s.takeWhile (· ≠ ':')
  match s.dropWhile (· ≠ ':') with
  | ':' :: '/' :: '/' :: rest =>
    if scheme = [] then none
    else
      let auth := rest.takeWhile authChar
      let rem := rest.dropWhile authChar
      let host := auth.takeWhile (· ≠ ':')
      let port := match auth.dropWhile (· ≠ ':') with
        | ':' :: p => some p
        | _ => none
      let path := rem.takeWhile (fun c => c ≠ '?' && c ≠ '#')
      let rem2 := rem.dropWhile (fun c => c ≠ '?' && c ≠ '#')
      let query := match rem2 with
        | '?' :: t => some (t.takeWhile (· ≠ '#'))
        | _ => none
      let frag := match rem2 with
        | '?' :: t =>
          (match t.dropWhile (· ≠ '#') with
           | '#' :: f => some f
           | _ => none)
        | '#' :: f => some f
        | _ => none
      some ⟨scheme, host, port, path, query, frag⟩
  | _ => none

/-! ### Canonicalization (`canonicalizeURL` in spider.go) -/

/-- The struct-level body of `canonicalizeURL`: clear the fragment, drop the
scheme's default port (80 for http, 443 for https) from the host, coerce an
empty path to `/`. -/
def canonURL (u : URL) : URL :=
  let u1 : URL := { u with fragment := none }
  let u2 : URL :=
    if (u1.scheme = httpChars ∧ u1.port = some ['8', '0']) ∨
       (u1.scheme = httpsChars ∧ u1.port = some ['4', '4', '3']) then
      { u1 with port := none }
    else u1
  if u2.path = [] then { u2 with path := ['/'] } else u2

/-- `canonicalizeURL` from spider.go: the canonical string of a parsed URL. -/
def canonicalizeURL (u : URL) : Chars :=
  urlString (canonURL u)

/-! ### Small string helpers from spider.go -/

def lowerChars (s : Chars) : Chars := s.map Char.toLower

/-- `StringFilter.Duplicate`: membership of the lowercased key in the
already-stored key set. -/
def dupMember (seen : List Chars) (s : Chars) : Bool :=
  seen.contains (lowerChars s)

/-- Go `strings.Contains`: `sub` occurs somewhere in `s`. -/
def containsSub (s sub : Chars) : Bool :=
  s.tails.any (fun t => sub.isPrefixOf t)

/-- Go `strings.ReplaceAll` for a nonempty pattern, with fuel for
termination (`fuel = s.length` always suffices). -/
def replaceAllF (pat rep : Chars) : Nat → Chars → Chars
  | 0, s => s
  | _ + 1, [] => []
  | fuel + 1, c :: cs =>
    if pat.isPrefixOf (c :: cs) ∧ pat ≠ [] then
      rep ++ replaceAllF pat rep fuel ((c :: cs).drop pat.length)
    else
      c :: replaceAllF pat rep fuel cs

def replaceAll (s pat rep : Chars) : Chars := replaceAllF pat rep s.length s

def minJsChars : Chars := ['.', 'm', 'i', 'n', '.', 'j', 's']
def dotJsChars : Chars := ['.', 'j', 's']

/-! ### DecodeChars (QueryUnescape then the `/`, `&` replacer) -/

def isHexC (c : Char) : Bool :=
  c.isDigit || ('a' ≤ c && c ≤ 'f') || ('A' ≤ c && c ≤ 'F')

def hexVal (c : Char) : Nat :=
  if c.isDigit then c.toNat - 48
  else if 'a' ≤ c then c.toNat - 87
  else c.toNat - 55

/-- Whether Go `url.QueryUnescape` succeeds: every `%` is followed by two
hex digits. -/
def unescapeOk : Chars → Bool
  | [] => true
  | c :: rest =>
    if c = '%' then
      match rest with
      | a :: b :: r => isHexC a && isHexC b && unescapeOk r
      | _ => false
    else unescapeOk rest

/-- The decoding pass of `url.QueryUnescape` (valid input): `%XX` becomes
the coded character, `+` becomes a space. -/
def unescapeRun : Chars → Chars
  | [] => []
  | c :: rest =>
    if c = '%' then
      match rest with
      | a :: b :: r => Char.ofNat (16 * hexVal a + hexVal b) :: unescapeRun r
      | _ => []
    else (if c = '+' then ' ' else c) :: unescapeRun rest

/-- Go `url.QueryUnescape`, keeping the original string on error exactly as
`DecodeChars` does. -/
def queryUnescape (s : Chars) : Chars :=
  if unescapeOk s then unescapeRun s else s

def bsU002f : Chars := ['\\', 'u', '0', '0', '2', 'f']
def bsU0026 : Chars := ['\\', 'u', '0', '0', '2', '6']

/-- `DecodeChars` from spider.go: query-unescape (best effort), then
replace the literal `/` and `&` escapes. -/
def DecodeChars (s : Chars) : Chars :=
  replaceAll (replaceAll (queryUnescape s) bsU002f ['/']) bsU0026 ['&']

/-! ### Disallowed static-asset extensions (`disallowedExtRE`) -/

/-- The alternation of `disallowedExtRE`, in source order. -/
def disallowedExts : List Chars :=
  ["png", "apng", "bmp", "gif", "ico", "cur", "jpg", "jpeg", "jfif", "pjp",
   "pjpeg", "svg", "tif", "tiff", "webp", "xbm", "3gp", "aac", "flac",
   "mpg", "mpeg", "mp3", "mp4", "m4a", "m4v", "m4p", "oga", "ogg", "ogv",
   "mov", "wav", "webm", "eot", "woff", "woff2", "ttf", "otf",
   "css"].map String.toList

/-- After an extension the regex requires `?`, `#` or the end of the
string. -/
def extSepOk : Chars → Bool
  | [] => true
  | c :: _ => c = '?' || c = '#'

/-- A match of `disallowedExtRE` starting at this position: a dot, one of
the extensions (ASCII case-insensitively), then `?`, `#` or end. -/
def disallowedAt : Chars → Bool
  | [] => false
  | c :: rest =>
    c = '.' && disallowedExts.any (fun e =>
      lowerChars (rest.take e.length) = e && extSepOk (rest.drop e.length))

/-- `disallowedExtRE.MatchString`: the pattern is unanchored, so it matches
iff it matches at some position of the full string. -/
def disallowedExtMatch (s : Chars) : Bool :=
  s.tails.any disallowedAt

/-! ### Emission records -/

/-- One output record: the kind tag, the printed URL/value, and for `url`
records the HTTP status and body length. -/
structure Emission where
  kind : String
  output : Chars
  status : Int
  length : Nat
deriving Repr, DecidableEq

/-- Result of running one callback: updated dedup set, emitted records,
URLs handed to a collector `Visit`. -/
structure CallbackResult where
  seen : List Chars
  emits : List Emission
  visits : List Chars
deriving Repr, DecidableEq

/-! ### feedLinkfinder (spider.go) -/

/-- `Crawler.feedLinkfinder`: dedupe on the lowercased raw argument, parse,
canonicalize, always emit the asset as `javascript`, and only when the
parsed URL is in scope visit it (plus the un-minified counterpart whenever
the canonical string contains `.min.js`). -/
def feedLinkfinder (pats : List Pattern) (jsSet : List Chars)
    (jsFileUrl : Chars) : CallbackResult :=
  if dupMember jsSet jsFileUrl then ⟨jsSet, [], []⟩
  else
    let jsSet' := lowerChars jsFileUrl :: jsSet
    match parseURL jsFileUrl with
    | none => ⟨jsSet', [], []⟩
    | some abs =>
      let canon := canonicalizeURL abs
      let emits := [⟨"javascript", canon, 0, 0⟩]
      if InScope abs pats then
        let extra := if containsSub canon minJsChars then
            [replaceAll canon minJsChars dotJsChars] else []
        ⟨jsSet', emits, extra ++ [canon]⟩
      else ⟨jsSet', emits, []⟩

/-! ### The `a`/`link` element callback (Crawler.Start OnHTML) -/

/-- The `a`/`link` branch of the OnHTML callback, taking the already
resolved absolute href string: drop empty, drop static noise via
`disallowedExtRE`, parse, enforce scope, canonicalize, dedupe, emit `href`
and visit. -/
def onAnchorHref (pats : List Pattern) (urlSet : List Chars)
    (resolved : Chars) : CallbackResult :=
  if resolved = [] then ⟨urlSet, [], []⟩
  else if disallowedExtMatch resolved then ⟨urlSet, [], []⟩
  else
    match parseURL resolved with
    | none => ⟨urlSet, [], []⟩
    | some abs =>
      if InScope abs pats then
        let canon := canonicalizeURL abs
        if dupMember urlSet canon then ⟨lowerChars canon :: urlSet, [], []⟩
        else ⟨lowerChars canon :: urlSet, [⟨"href", canon, 0, 0⟩], [canon]⟩
      else ⟨urlSet, [], []⟩

/-! ### Response and error callbacks: `url` emission -/

/-- The 4 MB soft cap `maxGrepBody`. -/
def maxGrepBody : Nat := 4 * 1024 * 1024

/-- `filterLengthSlice` membership (`contains` in spider.go, on Go ints). -/
def lenFiltered (fl : List Int) (n : Nat) : Bool :=
  fl.contains (n : Int)

/-- The `url`-record part of the primary collector's OnResponse callback:
bodies within the cap are decoded first and their decoded length is used;
the body-length filter is applied in both branches before emitting. -/
def mainOnResponseUrl (fl : List Int) (status : Int) (body : Chars)
    (u : Chars) : List Emission :=
  let rawLen := body.length
  if rawLen ≤ maxGrepBody then
    let respLen := (DecodeChars body).length
    if fl = [] || !lenFiltered fl respLen then [⟨"url", u, status, respLen⟩]
    else []
  else
    if fl = [] || !lenFiltered fl rawLen then [⟨"url", u, status, rawLen⟩]
    else []

/-- The `url`-record part of the JS sub-collector's OnResponse callback
(`setupLinkFinder`): statuses 404, 429 and below 100 return early; a body
over the cap emits `url` immediately (before the length filter); otherwise
the decoded length is filtered and emitted. -/
def lfOnResponseUrl (fl : List Int) (status : Int) (body : Chars)
    (u : Chars) : List Emission :=
  if status = 404 || status = 429 || status < 100 then []
  else if maxGrepBody < body.length then [⟨"url", u, status, body.length⟩]
  else
    let respLen := (DecodeChars body).length
    if fl = [] || !lenFiltered fl respLen then [⟨"url", u, status, respLen⟩]
    else []

/-- The primary collector's OnError callback: statuses 404, 429, below 100
and at or above 500 are suppressed; every other status emits `url` (with no
body-length filtering). -/
def onErrorUrl (status : Int) (bodyLen : Nat) (u : Chars) : List Emission :=
  if status = 404 || status = 429 || status < 100 || 500 ≤ status then []
  else [⟨"url", u, status, bodyLen⟩]

/-! ### Render manager (render.go, `StartRenderManager`) -/

/-- `inScopeStr` from render.go. -/
def inScopeStr (raw : Chars) (pats : List Pattern) : Bool :=
  match parseURL raw with
  | none => false
  | some u => InScope u pats

/-- The render loop: while budget is positive, take a queued URL, skip
empties, duplicates (lowercased, via `StringFilter`) and out-of-scope URLs,
otherwise emit a `render` record and spend one unit of budget.  The queue
is modelled as the finite list of URLs received. -/
def renderLoop (pats : List Pattern) : Nat → List Chars → List Chars →
    List Emission
  | 0, _, _ => []
  | _ + 1, _, [] => []
  | budget + 1, seen, u :: rest =>
    if u = [] then renderLoop pats (budget + 1) seen rest
    else if dupMember seen u then renderLoop pats (budget + 1) seen rest
    else
      let seen' := lowerChars u :: seen
      if inScopeStr u pats then
        ⟨"render", u, 0, 0⟩ :: renderLoop pats budget seen' rest
      else renderLoop pats (budget + 1) seen' rest

/-- `StartRenderManager`: a configured budget at or below zero is coerced
to 6; the queue is seeded with the start URL. -/
def startRenderEmissions (pats : List Pattern) (budget : Int)
    (startUrl : Chars) (queued : List Chars) : List Emission :=
  let eff : Nat := if budget ≤ 0 then 6 else budget.toNat
  renderLoop pats eff [] (startUrl :: queued)

def countKind (k : String) (ems : List Emission) : Nat :=
  (ems.filter (fun e => e.kind = k)).length

/-! ### Subdomain extraction and cleaning -/

def isAlnumC (c : Char) : Bool :=
  ('a' ≤ c && c ≤ 'z') || ('A' ≤ c && c ≤ 'Z') || c.isDigit

def isLabelHeadC (c : Char) : Bool := isAlnumC c || c = '_'
def isLabelMidC (c : Char) : Bool := isLabelHeadC c || c = '-'

/-- One DNS label of `SUBRE`: either a single alphanumeric character, or a
head in `[_a-zA-Z0-9]`, up to 61 middle characters also allowing `-`, and
an alphanumeric tail. -/
def validLabel (l : Chars) : Bool :=
  match l with
  | [] => false
  | [c] => isAlnumC c
  | c :: rest =>
    isLabelHeadC c && l.length ≤ 63 && isAlnumC (l.getLastD ' ') &&
      rest.dropLast.all isLabelMidC

/-- The suffixes reachable by consuming one or more `label.` groups of
`SUBRE` from the front of `s` (each group necessarily ends at the next
dot), innermost first. -/
def labelStopsF : Nat → Chars → List Chars
  | 0, _ => []
  | fuel + 1, s =>
    match s.dropWhile (· ≠ '.') with
    | '.' :: rest =>
      if validLabel (s.takeWhile (· ≠ '.')) then
        rest :: labelStopsF fuel rest
      else []
    | _ => []

/-- A match of `subdomainRegex(domain)` at the current position: one or
more label groups, preferring more groups (the regex `+` is greedy), then
the domain case-insensitively; returns the matched length. -/
def subMatchAt (domain : Chars) (s : Chars) : Option Nat :=
  (labelStopsF s.length s).reverse.findSome? (fun stop =>
    if domain.length ≤ stop.length ∧
        lowerChars (stop.take domain.length) = lowerChars domain then
      some (s.length - stop.length + domain.length)
    else none)

/-- `FindAllString` of `subdomainRegex(domain)`: scan left to right,
non-overlapping. -/
def subFindAllF (domain : Chars) : Nat → Chars → List Chars
  | 0, _ => []
  | fuel + 1, s =>
    match s with
    | [] => []
    | _ :: t =>
      match subMatchAt domain s with
      | some n =>
        if n = 0 then subFindAllF domain fuel t
        else s.take n :: subFindAllF domain fuel (s.drop n)
      | none => subFindAllF domain fuel t

def subFindAll (domain s : Chars) : List Chars :=
  subFindAllF domain s.length s

/-- Go `strings.TrimSpace` / `strings.Trim`: drop characters satisfying `p`
from both ends. -/
def trimEnds (p : Char → Bool) (s : Chars) : Chars :=
  ((s.dropWhile p).reverse.dropWhile p).reverse

/-- A leading residue token of `nameStripRE`: one of 20, 25, 2b, 2f, 3d,
3a, 40 (the input is already lowercased when this runs). -/
def isResidue (a b : Char) : Bool :=
  a = '2' && (b = '0' || b = '5' || b = 'b' || b = 'f') ||
  a = '3' && (b = 'd' || b = 'a') ||
  a = '4' && b = '0'

/-- The `cleanName` loop: repeatedly strip a maximal leading run of residue
tokens. -/
def stripResidues : Chars → Chars
  | a :: b :: rest =>
    if isResidue a b then stripResidues rest else a :: b :: rest
  | s => s

/-- The tail of `cleanName`: trim `-` from both ends, then drop a single
leading dot when more than one character remains. -/
def dropLeadDot (s : Chars) : Chars :=
  if 1 < s.length ∧ s.headD ' ' = '.' then s.drop 1 else s

/-- `CleanSubdomain` from spider.go: lowercase, trim whitespace, strip a
leading `*.`, strip leading percent-encoding residues, trim surrounding
`-`, drop a remaining leading dot. -/
def CleanSubdomain (s : Chars) : Chars :=
  let s1 := trimEnds Char.isWhitespace (lowerChars s)
  let s2 := if ['*', '.'].isPrefixOf s1 then s1.drop 2 else s1
  dropLeadDot (trimEnds (· = '-') (stripResidues s2))

/-- `GetSubdomains`: every regex match, passed through `CleanSubdomain`. -/
def GetSubdomains (source domain : Chars) : List Chars :=
  (subFindAll domain source).map CleanSubdomain

/-- `Crawler.findSubdomains`: emit each extracted subdomain once (dedup via
the `subSet` string filter); the emitted value is the cleaned subdomain. -/
def findSubdomainsEmit (subSet : List Chars) : List Chars →
    List Chars × List Emission
  | [] => (subSet, [])
  | sub :: rest =>
    if dupMember subSet sub then findSubdomainsEmit subSet rest
    else
      let (s', es) := findSubdomainsEmit (lowerChars sub :: subSet) rest
      (s', ⟨"subdomains", sub, 0, 0⟩ :: es)

def findSubdomains (subSet : List Chars) (source domain : Chars) :
    List Chars × List Emission :=
  findSubdomainsEmit subSet (GetSubdomains source domain)

/-- Running `feedLinkfinder` over a sequence of calls, threading the
`jsSet` dedup state, collecting all emissions. -/
def runFeed (pats : List Pattern) (seen : List Chars) : List Chars →
    List Emission
  | [] => []
  | c :: rest =>
    let r := feedLinkfinder pats seen c
    r.emits ++ runFeed pats r.seen rest

/-! ### Well-formedness of modelled URLs -/

def schemeChar (c : Char) : Bool :=
  c.isAlpha || c.isDigit || c = '+' || c = '-' || c = '.'

def hostChar (c : Char) : Bool :=
  c ≠ ':' && c ≠ '/' && c ≠ '?' && c ≠ '#'

def wfPort : Option Chars → Bool
  | none => true
  | some p => decide (p ≠ []) && p.all (·.isDigit)

/-- Well-formed parsed http(s)-style URL: Go's parser guarantees a
nonempty scheme of scheme characters, a hostname free of delimiters, an
all-digit nonempty port when present, and a path that is empty or starts
with a slash. -/
def WFURL (u : URL) : Prop :=
  u.scheme ≠ [] ∧ (∀ c ∈ u.scheme, schemeChar c = true) ∧
    (∀ c ∈ u.host, hostChar c = true) ∧ wfPort u.port = true ∧
    (u.path = [] ∨ u.path.headD ' ' = '/')

/-- A scope host as quoted into the regex: nonempty, no delimiters. -/
def WFHost (h : Chars) : Prop :=
  h ≠ [] ∧ ∀ c ∈ h, hostChar c = true

/-! ### The spec's wording of the scope characterization (claim C1) -/

/-- Dot-terminated subdomain labels: a concatenation of groups, each a
nonempty dot-free segment followed by a literal dot. -/
inductive DotLabels : Chars → Prop
  | nil : DotLabels []
  | cons (seg rest : Chars) : seg ≠ [] → (∀ c ∈ seg, c ≠ '.') →
      DotLabels rest → DotLabels (seg ++ '.' :: rest)

/-- The characterization claimed by the spec: scheme is http or https, the
host is the scope host (or, with subdomains, the scope host preceded by
dot-terminated labels), optionally followed by a port, with the host part
followed by `/` or the end of the string (at the structure level: nonempty
path, or no query and no fragment). -/
def SpecInScope (H : Chars) (allowSubs : Bool) (u : URL) : Prop :=
  (u.scheme = httpChars ∨ u.scheme = httpsChars) ∧
    (u.host = H ∨
      (allowSubs = true ∧ ∃ pre, DotLabels pre ∧ u.host = pre ++ H)) ∧
    (u.path ≠ [] ∨ (u.query = none ∧ u.fragment = none))

/-- The spec's wording of extension classification (claim C5): the suffix
of the path — the part before `?` or `#` — is one of the fixed extensions,
case-insensitively. -/
def specDisallowedByExt (u : URL) : Bool :=
  disallowedExts.any (fun e => ('.' :: e).isSuffixOf (lowerChars u.path))

/-- The spec's wording of the bare-domain host property (claim C2): the
host is the apex or ends with `.` followed by the apex. -/
def bareHostOk (apex host : Chars) : Bool :=
  host == apex || ('.' :: apex).isSuffixOf host

def hostOfString (s : Chars) : Chars :=
  match parseURL s with
  | some u => u.host
  | none => []

/-! ## Helper lemmas -/

theorem takeWhile_append_all {p : Char → Bool} {a : Chars} (b : Chars)
    (h : ∀ c ∈ a, p c = true) :
    (a ++ b).takeWhile p = a ++ b.takeWhile p := by
  induction a with
  | nil => simp
  | cons c t ih =>
    have hc := h c (List.mem_cons_self c t)
    simp only [List.cons_append, List.takeWhile_cons, hc, if_true]
    rw [ih fun x hx => h x (List.mem_cons_of_mem c hx)]

theorem dropWhile_append_all {p : Char → Bool} {a : Chars} (b : Chars)
    (h : ∀ c ∈ a, p c = true) :
    (a ++ b).dropWhile p = b.dropWhile p := by
  induction a with
  | nil => simp
  | cons c t ih =>
    have hc := h c (List.mem_cons_self c t)
    simp only [List.cons_append, List.dropWhile_cons, hc, if_true]
    exact ih fun x hx => h x (List.mem_cons_of_mem c hx)

theorem dropPre_append (a b : Chars) : dropPre a (a ++ b) = some b := by
  induction a with
  | nil => rfl
  | cons c t ih => simp [dropPre, ih]

theorem dropPre_eq_some {a : Chars} : ∀ {s r : Chars},
    dropPre a s = some r → s = a ++ r := by
  induction a with
  | nil =>
    intro s r h
    have : s = r := by simpa [dropPre] using h
    simpa using this
  | cons c t ih =>
    intro s r h
    match s with
    | [] => simp [dropPre] at h
    | d :: s' =>
      simp only [dropPre] at h
      split at h
      · next heq => subst heq; simpa using ih h
      · exact absurd h (by simp)

/-! ## Claim C1: scope patterns and their characterization -/

/-- The part of the URL string after `scheme://`. -/
def afterScheme (u : URL) : Chars :=
  hostPort u ++ u.path ++ queryStr u ++ fragmentStr u

theorem urlString_decomp (u : URL) :
    urlString u = u.scheme ++ (schemeSep ++ afterScheme u) := by
  simp [urlString, afterScheme, List.append_assoc]

theorem schemeChar_ne_colon {c : Char} (h : schemeChar c = true) :
    (c != ':') = true := by
  by_contra hc
  have : c = ':' := by
    simpa using hc
  subst this
  simp [schemeChar] at h

theorem takeWhile_scheme {sch : Chars} (rest : Chars)
    (h : ∀ c ∈ sch, schemeChar c = true) :
    (sch ++ (schemeSep ++ rest)).takeWhile (· != ':') = sch := by
  rw [takeWhile_append_all _ fun c hc => schemeChar_ne_colon (h c hc)]
  simp [schemeSep, List.takeWhile_cons]

/-- If stripping `https?://` from a well-formed URL string succeeds, the
scheme really was `http` or `https` and the remainder is everything after
`://`. -/
theorem stripHttpScheme_urlString {u : URL} {r : Chars}
    (hsc : ∀ c ∈ u.scheme, schemeChar c = true)
    (h : stripHttpScheme (urlString u) = some r) :
    (u.scheme = httpChars ∨ u.scheme = httpsChars) ∧ r = afterScheme u := by
  have split : ∀ pre : Chars, (∀ c ∈ pre, schemeChar c = true) →
      urlString u = (pre ++ schemeSep) ++ r →
      u.scheme = pre ∧ r = afterScheme u := by
    intro pre hpre heq
    rw [urlString_decomp] at heq
    have heq2 : u.scheme ++ (schemeSep ++ afterScheme u) =
        pre ++ (schemeSep ++ r) := by
      rw [heq]
      simp [List.append_assoc]
    have hsch : u.scheme = pre := by
      have h1 := takeWhile_scheme (afterScheme u) hsc
      have h2 := takeWhile_scheme r hpre
      rw [heq2, h2] at h1
      exact h1.symm
    subst hsch
    refine ⟨rfl, ?_⟩
    have h3 := List.append_cancel_left heq2
    exact (List.append_cancel_left h3).symm
  rcases hd : dropPre (httpsChars ++ schemeSep) (urlString u) with - | r1
  · simp only [stripHttpScheme, hd] at h
    obtain ⟨hsch, hr⟩ := split httpChars (by decide)
      (by simpa [List.append_assoc] using dropPre_eq_some h)
    exact ⟨Or.inl hsch, hr⟩
  · simp only [stripHttpScheme, hd, Option.some.injEq] at h
    subst h
    obtain ⟨hsch, hr⟩ := split httpsChars (by decide)
      (by simpa [List.append_assoc] using dropPre_eq_some hd)
    exact ⟨Or.inr hsch, hr⟩

/-- Conversely, a URL whose scheme is `http` or `https` strips cleanly. -/
theorem stripHttpScheme_of_scheme {u : URL}
    (h : u.scheme = httpChars ∨ u.scheme = httpsChars) :
    stripHttpScheme (urlString u) = some (afterScheme u) := by
  rcases h with h | h
  · have hn : dropPre (httpsChars ++ schemeSep) (urlString u) = none := by
      rw [urlString_decomp, h]
      rfl
    have hs : dropPre (httpChars ++ schemeSep) (urlString u) =
        some (afterScheme u) := by
      rw [urlString_decomp, h, ← List.append_assoc]
      exact dropPre_append _ _
    simp [stripHttpScheme, hn, hs]
  · have hs : dropPre (httpsChars ++ schemeSep) (urlString u) =
        some (afterScheme u) := by
      rw [urlString_decomp, h, ← List.append_assoc]
      exact dropPre_append _ _
    simp [stripHttpScheme, hs]

theorem portEndOk_cons_false {c : Char} {rest : Chars} (h1 : c ≠ '/')
    (h2 : c ≠ ':') : portEndOk (c :: rest) = false := by
  simp [portEndOk, h1, h2]

/-- The tail after the host in a well-formed URL string satisfies the
`(?::\d+)?(?:/|$)` check exactly when the path is nonempty (hence starts
with `/`) or there is no query and no fragment. -/
theorem portEndOk_tail_iff (u : URL) (hport : wfPort u.port = true)
    (hpath : u.path = [] ∨ u.path.headD ' ' = '/') :
    portEndOk (portStr u ++ u.path ++ queryStr u ++ fragmentStr u) = true ↔
      (u.path ≠ [] ∨ (u.query = none ∧ u.fragment = none)) := by
  rcases hpt : u.port with - | p
  · rcases hp : u.path with - | ⟨c, p'⟩
    · rcases hq : u.query with - | q
      · rcases hf : u.fragment with - | f
        · simp [portStr, hpt, hp, hq, hf, queryStr, fragmentStr, portEndOk]
        · simp [portStr, hpt, hp, hq, hf, queryStr, fragmentStr, portEndOk]
      · simp [portStr, hpt, hp, hq, queryStr, portEndOk]
    · have hc : c = '/' := by
        rcases hpath with h | h
        · simp [hp] at h
        · simpa [hp] using h
      subst hc
      simp [portStr, hpt, hp, portEndOk]
  · obtain ⟨hp1, hp2⟩ : p ≠ [] ∧ p.all (·.isDigit) = true := by
      simpa [wfPort, hpt] using hport
    have hp2' : ∀ c ∈ p, c.isDigit = true := by
      intro c hc
      exact List.all_eq_true.mp hp2 c hc
    have hexpr : portStr u ++ u.path ++ queryStr u ++ fragmentStr u =
        ':' :: (p ++ (u.path ++ (queryStr u ++ fragmentStr u))) := by
      simp [portStr, hpt, List.append_assoc]
    rw [hexpr]
    have hpe : portEndOk
        (':' :: (p ++ (u.path ++ (queryStr u ++ fragmentStr u)))) =
        (decide ((p ++ (u.path ++ (queryStr u ++ fragmentStr u))).takeWhile
            Char.isDigit ≠ []) &&
          headSlashOrNil ((p ++ (u.path ++ (queryStr u ++
            fragmentStr u))).dropWhile Char.isDigit)) := by
      simp [portEndOk]
    rw [hpe, takeWhile_append_all _ hp2', dropWhile_append_all _ hp2']
    rcases hp : u.path with - | ⟨c, p'⟩
    · rcases hq : u.query with - | q
      · rcases hf : u.fragment with - | f
        · simp [hp, hq, hf, queryStr, fragmentStr, headSlashOrNil, hp1]
        · simp [hp, hq, hf, queryStr, fragmentStr, headSlashOrNil, hp1]
      · simp [hp, hq, queryStr, headSlashOrNil, hp1]
    · have hc : c = '/' := by
        rcases hpath with h | h
        · simp [hp] at h
        · simpa [hp] using h
      subst hc
      simp [hp, headSlashOrNil, hp1]

theorem afterScheme_decomp (u : URL) :
    afterScheme u = u.host ++
      (portStr u ++ u.path ++ queryStr u ++ fragmentStr u) := by
  simp [afterScheme, hostPort, List.append_assoc]

/-- For a well-formed URL, the host-and-tail part of the scope regex
matches the post-scheme string exactly when the URL's host equals the
scope host and the host part is followed by `/` or the end. -/
theorem hostTail_afterScheme_iff (H : Chars) (u : URL)
    (hH : ∀ c ∈ H, hostChar c = true)
    (hhost : ∀ c ∈ u.host, hostChar c = true)
    (hport : wfPort u.port = true)
    (hpath : u.path = [] ∨ u.path.headD ' ' = '/') :
    hostTail H (afterScheme u) = true ↔
      (u.host = H ∧ (u.path ≠ [] ∨ (u.query = none ∧ u.fragment = none))) := by
  rw [afterScheme_decomp]
  constructor
  · intro ht
    rcases hd : dropPre H
        (u.host ++ (portStr u ++ u.path ++ queryStr u ++ fragmentStr u))
      with - | r
    · simp only [hostTail, hd] at ht
      exact absurd ht (by simp)
    · simp only [hostTail, hd] at ht
      have heq := dropPre_eq_some hd
      by_cases hlen : H.length ≤ u.host.length
      · have hpre : H <+: u.host :=
          List.prefix_of_prefix_length_le ⟨r, heq.symm⟩
            (List.prefix_append _ _) hlen
        obtain ⟨m, hm⟩ := hpre
        rcases m with - | ⟨c, m'⟩
        · have hh : u.host = H := by simpa using hm.symm
          refine ⟨hh, ?_⟩
          have hrB : portStr u ++ u.path ++ queryStr u ++ fragmentStr u =
              r := by
            apply List.append_cancel_left
            rw [← heq, hh]
          rw [← hrB] at ht
          exact (portEndOk_tail_iff u hport hpath).mp ht
        · exfalso
          have hcm : c ∈ u.host := by
            rw [← hm]
            simp
          have hcc := hhost c hcm
          simp only [hostChar, Bool.and_eq_true, bne_iff_ne,
            decide_eq_true_eq] at hcc
          have hr : r = c :: (m' ++
              (portStr u ++ u.path ++ queryStr u ++ fragmentStr u)) := by
            have h2 := heq
            rw [← hm, List.append_assoc] at h2
            have h3 := List.append_cancel_left h2
            simpa using h3.symm
          rw [hr, portEndOk_cons_false hcc.1.1.2 hcc.1.1.1] at ht
          exact absurd ht (by simp)
      · push_neg at hlen
        have hpre : u.host <+: H :=
          List.prefix_of_prefix_length_le (List.prefix_append _ _)
            ⟨r, heq.symm⟩ (le_of_lt hlen)
        obtain ⟨m, hm⟩ := hpre
        rcases m with - | ⟨c, m'⟩
        · exfalso
          have : u.host = H := by simpa using hm
          rw [this] at hlen
          omega
        · exfalso
          have hcm : c ∈ H := by
            rw [← hm]
            simp
          have hcc := hH c hcm
          simp only [hostChar, Bool.and_eq_true, bne_iff_ne,
            decide_eq_true_eq] at hcc
          have hB : portStr u ++ u.path ++ queryStr u ++ fragmentStr u =
              c :: (m' ++ r) := by
            have h2 := heq
            rw [← hm, List.append_assoc u.host (c :: m') r] at h2
            have h3 := List.append_cancel_left h2
            simpa using h3
          rcases hpt : u.port with - | p
          · rcases hpq : u.path with - | ⟨c2, p'⟩
            · rcases hq : u.query with - | q
              · rcases hf : u.fragment with - | f
                · simp [portStr, queryStr, fragmentStr, hpt, hpq, hq,
                    hf] at hB
                · simp [portStr, queryStr, fragmentStr, hpt, hpq, hq,
                    hf] at hB
                  exact hcc.2 hB.1.symm
              · simp [portStr, queryStr, hpt, hpq, hq] at hB
                exact hcc.1.2 hB.1.symm
            · have hc2 : c2 = '/' := by
                rcases hpath with h | h
                · simp [hpq] at h
                · simpa [hpq] using h
              subst hc2
              simp [portStr, hpt, hpq] at hB
              exact hcc.1.1.2 hB.1.symm
          · simp [portStr, hpt] at hB
            exact hcc.1.1.1 hB.1.symm
  · rintro ⟨hh, hqf⟩
    rw [hh, hostTail, dropPre_append]
    exact (portEndOk_tail_iff u hport hpath).mpr hqf

/-- Dot-terminated labels in front of a string accepted by `hostTail` are
accepted by the `([^.]+\.)*` part of the subdomain scope regex. -/
theorem labelsHostF_of_dotLabels {H : Chars} {pre s : Chars}
    (hd : DotLabels pre) (hs : hostTail H s = true) :
    ∀ fuel : Nat, (pre ++ s).length < fuel →
      labelsHostF H fuel (pre ++ s) = true := by
  induction hd with
  | nil =>
    intro fuel hf
    rcases fuel with - | n
    · simp at hf
    · simp only [List.nil_append] at hf ⊢
      simp [labelsHostF, hs]
  | cons seg rest hseg hnd hdrest ih =>
    intro fuel hf
    rcases fuel with - | n
    · simp at hf
    · have hexp : (seg ++ '.' :: rest) ++ s = seg ++ ('.' :: (rest ++ s)) := by
        simp
      rw [hexp] at hf ⊢
      have hall : ∀ c ∈ seg, (decide (c ≠ '.')) = true := fun c hc => by
        simpa using hnd c hc
      have hdw : (seg ++ ('.' :: (rest ++ s))).dropWhile (· ≠ '.') =
          '.' :: (rest ++ s) := by
        rw [dropWhile_append_all _ hall]
        simp [List.dropWhile_cons]
      have htw : (seg ++ ('.' :: (rest ++ s))).takeWhile (· ≠ '.') = seg := by
        rw [takeWhile_append_all _ hall]
        simp [List.takeWhile_cons]
      have hlen : (rest ++ s).length < n := by
        have hsg : 1 ≤ seg.length := List.length_pos.mpr hseg
        simp only [List.length_append, List.length_cons] at hf ⊢
        omega
      have hrec := ih _ hlen
      simp only [labelsHostF, hdw, htw]
      simp [hseg, hrec]

/-- C1 amended: `InScope` is true iff some pattern matches the URL's full
string; the spec's structural characterization is exact for the host-only
pattern, and remains sufficient — but not necessary — for the
subdomains pattern (whose `[^.]+` label groups also admit characters such
as `/`). -/
theorem c1_scope_amended (u : URL) (H : Chars) (hu : WFURL u)
    (hH : WFHost H) :
    (∀ pats : List Pattern,
        InScope u pats = true ↔ ∃ p ∈ pats, p (urlString u) = true) ∧
      (InScope u (hostScopePatterns H) = true ↔ SpecInScope H false u) ∧
      (SpecInScope H true u → InScope u (autoScopePatterns H) = true) := by
  obtain ⟨hne, hsc, hhost, hport, hpath⟩ := hu
  obtain ⟨-, hHc⟩ := hH
  refine ⟨fun pats => by simp [InScope, List.any_eq_true], ?_, ?_⟩
  · have hin : InScope u (hostScopePatterns H) =
        matchScope false H (urlString u) := by
      simp [InScope, hostScopePatterns]
    rw [hin]
    constructor
    · intro hm
      rcases hs : stripHttpScheme (urlString u) with - | rest
      · rw [matchScope, hs] at hm
        exact absurd hm (by simp)
      · obtain ⟨hsch, hrest⟩ := stripHttpScheme_urlString hsc hs
        rw [matchScope, hs] at hm
        simp only [if_false, Bool.false_eq_true] at hm
        rw [hrest] at hm
        obtain ⟨hh, hqf⟩ :=
          (hostTail_afterScheme_iff H u hHc hhost hport hpath).mp hm
        exact ⟨hsch, Or.inl hh, hqf⟩
    · rintro ⟨hsch, hh, hqf⟩
      have hh2 : u.host = H := by
        rcases hh with hh | ⟨hfalse, -⟩
        · exact hh
        · exact absurd hfalse (by simp)
      rw [matchScope, stripHttpScheme_of_scheme hsch]
      simp only [if_false, Bool.false_eq_true]
      exact (hostTail_afterScheme_iff H u hHc hhost hport hpath).mpr
        ⟨hh2, hqf⟩
  · rintro ⟨hsch, hh, hqf⟩
    have hin : InScope u (autoScopePatterns H) =
        matchScope true H (urlString u) := by
      simp [InScope, autoScopePatterns]
    rw [hin, matchScope, stripHttpScheme_of_scheme hsch]
    simp only [if_true]
    obtain ⟨pre, hdl, hpre⟩ :
        ∃ pre, DotLabels pre ∧ u.host = pre ++ H := by
      rcases hh with hh | ⟨-, pre, hdl, hpre⟩
      · exact ⟨[], DotLabels.nil, by simpa using hh⟩
      · exact ⟨pre, hdl, hpre⟩
    have hA : afterScheme u = pre ++ (H ++
        (portStr u ++ u.path ++ queryStr u ++ fragmentStr u)) := by
      rw [afterScheme_decomp, hpre]
      simp [List.append_assoc]
    have hht : hostTail H (H ++
        (portStr u ++ u.path ++ queryStr u ++ fragmentStr u)) = true := by
      rw [hostTail, dropPre_append]
      exact (portEndOk_tail_iff u hport hpath).mpr hqf
    rw [labelsHost, hA]
    exact labelsHostF_of_dotLabels hdl hht _ (by omega)

/-- C1 counterexample: under the subdomains pattern for scope host
`example.com`, the URL `http://evil/x.example.com` is in scope — the label
group `evil/x.` is accepted by `[^.]+\.` — although its host `evil` is
neither the scope host nor the scope host preceded by dot-terminated
labels, refuting the claimed `exactly when`. -/
theorem c1_scope_counterexample :
    InScope ⟨httpChars, "evil".toList, none, "/x.example.com".toList,
        none, none⟩ (autoScopePatterns "example.com".toList) = true ∧
      ¬ SpecInScope "example.com".toList true
        ⟨httpChars, "evil".toList, none, "/x.example.com".toList,
          none, none⟩ := by
  refine ⟨by decide, ?_⟩
  rintro ⟨-, hh, -⟩
  rcases hh with hh | ⟨-, pre, -, hpre⟩
  · exact absurd hh (by decide)
  · have := congrArg List.length hpre
    simp at this

/-- Witness for the amended C1 at a concrete URL and scope host. -/
theorem c1_scope_amended_witness :
    InScope ⟨httpsChars, "a.test".toList, none, "/x".toList, none, none⟩
        (hostScopePatterns "a.test".toList) = true ↔
      SpecInScope "a.test".toList false
        ⟨httpsChars, "a.test".toList, none, "/x".toList, none, none⟩ :=
  (c1_scope_amended
    ⟨httpsChars, "a.test".toList, none, "/x".toList, none, none⟩
    "a.test".toList
    (by constructor
        · decide
        · exact ⟨by decide, by decide, by decide, by decide⟩)
    ⟨by decide, by decide⟩).2.1

/-! ## Claim C6: canonicalization is idempotent -/

/-- C6: for every parseable URL u, canonicalizing twice equals
canonicalizing once — both at the structure level (`canonURL`, the body of
`canonicalizeURL`) and for the resulting canonical string. -/
theorem c6_canonicalize_idempotent (u : URL) :
    canonURL (canonURL u) = canonURL u ∧
      canonicalizeURL (canonURL u) = canonicalizeURL u := by
  have h : canonURL (canonURL u) = canonURL u := by
    obtain ⟨sc, h, p, pa, q, f⟩ := u
    simp only [canonURL]
    split_ifs <;> simp_all
  exact ⟨h, by simp [canonicalizeURL, h]⟩

/-! ## Claim C3: status suppression in the response paths -/

/-- C3 counterexample: the claim says a status of at least 500 never emits
a `url` record in any response path, but the JS sub-collector's response
callback only suppresses 404, 429 and statuses below 100 — a 500 response
there emits `url` with status 500. -/
theorem c3_status_counterexample :
    (500 ≤ (500 : Int)) ∧
      lfOnResponseUrl [] 500 ['a', 'b', 'c'] ['u'] =
        [⟨"url", ['u'], 500, 3⟩] := by
  refine ⟨by decide, by decide⟩

/-- C3 amended: the primary collector's error callback suppresses 404,
429, statuses below 100 and at or above 500; the JS sub-collector's
response callback suppresses only 404, 429 and below 100 (so a status of
at least 500 reaching it still emits); every status outside the error
callback's suppressed set emits `url` there with that status, and also in
the sub-collector path when the length filter is empty. -/
theorem c3_status_amended (st : Int) (len : Nat) (u body : Chars)
    (fl : List Int) :
    ((st = 404 ∨ st = 429 ∨ st < 100 ∨ 500 ≤ st) →
        onErrorUrl st len u = []) ∧
      ((st = 404 ∨ st = 429 ∨ st < 100) →
        lfOnResponseUrl fl st body u = []) ∧
      (¬(st = 404 ∨ st = 429 ∨ st < 100 ∨ 500 ≤ st) →
        onErrorUrl st len u = [⟨"url", u, st, len⟩] ∧
          (fl = [] → lfOnResponseUrl fl st body u ≠ [])) := by
  refine ⟨fun h => ?_, fun h => ?_, fun h => ⟨?_, fun hfl => ?_⟩⟩
  · rcases h with h | h | h | h <;> simp [onErrorUrl, h]
  · rcases h with h | h | h <;> simp [lfOnResponseUrl, h]
  · push_neg at h
    obtain ⟨h1, h2, h3, h4⟩ := h
    simp [onErrorUrl, h1, h2, h3, h4]
  · push_neg at h
    obtain ⟨h1, h2, h3, _⟩ := h
    subst hfl
    simp only [lfOnResponseUrl, h1, h2, h3]
    split
    · next hcond =>
      simp at hcond
      omega
    · split
      · simp
      · simp

/-- Witness for the amended C3 at concrete statuses 404 and 403. -/
theorem c3_status_amended_witness :
    onErrorUrl 404 7 ['u'] = [] ∧
      lfOnResponseUrl [] 429 ['a'] ['u'] = [] ∧
      onErrorUrl 403 7 ['u'] = [⟨"url", ['u'], 403, 7⟩] ∧
      lfOnResponseUrl [] 403 ['a'] ['u'] ≠ [] :=
  ⟨(c3_status_amended 404 7 ['u'] ['a'] []).1 (Or.inl rfl),
   (c3_status_amended 429 7 ['u'] ['a'] []).2.1 (Or.inr (Or.inl rfl)),
   ((c3_status_amended 403 7 ['u'] ['a'] []).2.2 (by decide)).1,
   ((c3_status_amended 403 7 ['u'] ['a'] []).2.2 (by decide)).2 rfl⟩

/-! ## Claim C4: the body-length filter -/

/-- C4 counterexample: the claim says the filter applies in every response
path including bodies over the 4 MB grep cap, but the JS sub-collector
emits `url` for an over-cap body before consulting the filter: a body of
4194305 bytes with 4194305 in `filterLength` is still emitted. -/
theorem c4_filter_length_counterexample :
    lenFiltered [4194305] (List.replicate 4194305 'a').length = true ∧
      lfOnResponseUrl [4194305] 200 (List.replicate 4194305 'a') ['u'] =
        [⟨"url", ['u'], 200, 4194305⟩] := by
  constructor
  · rw [List.length_replicate]
    decide
  · unfold lfOnResponseUrl
    rw [if_neg (by decide), if_pos
      (by rw [List.length_replicate]; norm_num [maxGrepBody]),
      List.length_replicate]

/-- C4 amended: the primary response callback honors the filter in both of
its branches (against the decoded length within the cap, the raw length
above it); the JS sub-collector honors it only within the cap, and for an
over-cap body emits `url` regardless of the filter. -/
theorem c4_filter_length_amended (fl : List Int) (st : Int) (body u : Chars) :
    (lenFiltered fl (DecodeChars body).length = true →
        body.length ≤ maxGrepBody → mainOnResponseUrl fl st body u = []) ∧
      (lenFiltered fl body.length = true → maxGrepBody < body.length →
        mainOnResponseUrl fl st body u = []) ∧
      (lenFiltered fl (DecodeChars body).length = true →
        body.length ≤ maxGrepBody → lfOnResponseUrl fl st body u = []) ∧
      (maxGrepBody < body.length → ¬(st = 404 ∨ st = 429 ∨ st < 100) →
        lfOnResponseUrl fl st body u = [⟨"url", u, st, body.length⟩]) := by
  have hfl : ∀ n : Nat, lenFiltered fl n = true → fl ≠ [] := by
    intro n h hnil
    subst hnil
    simp [lenFiltered] at h
  refine ⟨fun h hle => ?_, fun h hgt => ?_, fun h hle => ?_, fun hgt hst => ?_⟩
  · simp [mainOnResponseUrl, hle, h, hfl _ h]
  · simp [mainOnResponseUrl, Nat.not_le.mpr hgt, h, hfl _ h]
  · simp [lfOnResponseUrl, Nat.not_lt.mpr hle, h, hfl _ h]
  · push_neg at hst
    obtain ⟨h1, h2, h3⟩ := hst
    simp [lfOnResponseUrl, h1, h2, Int.not_lt.mpr h3, hgt]

/-- Witness for the amended C4 at small concrete bodies. -/
theorem c4_filter_length_amended_witness :
    mainOnResponseUrl [3] 200 ['a', 'b', 'c'] ['u'] = [] ∧
      lfOnResponseUrl [3] 200 ['a', 'b', 'c'] ['u'] = [] :=
  ⟨(c4_filter_length_amended [3] 200 ['a', 'b', 'c'] ['u']).1
      (by decide) (by decide),
   (c4_filter_length_amended [3] 200 ['a', 'b', 'c'] ['u']).2.2.1
      (by decide) (by decide)⟩

/-! ## Claim C8: the render budget -/

theorem renderLoop_length_le (pats : List Pattern) :
    ∀ (events : List Chars) (budget : Nat) (seen : List Chars),
      (renderLoop pats budget seen events).length ≤ budget := by
  intro events
  induction events with
  | nil =>
    intro budget seen
    cases budget <;> simp [renderLoop]
  | cons u rest ih =>
    intro budget seen
    cases budget with
    | zero => simp [renderLoop]
    | succ b =>
      simp only [renderLoop]
      split_ifs with h1 h2 h3
      · exact ih (b + 1) seen
      · exact ih (b + 1) seen
      · simpa [List.length_cons, Nat.succ_le_succ_iff] using
          ih b (lowerChars u :: seen)
      · exact ih (b + 1) (lowerChars u :: seen)

/-- C8 counterexample: the claim bounds `render` emissions by the
configured budget for every configured value, but `StartRenderManager`
coerces a budget at or below zero to 6: with a configured budget of 0 an
in-scope queued start URL is still rendered, so one `render` record is
emitted where the claim allows none. -/
theorem c8_render_budget_counterexample :
    countKind "render"
        (startRenderEmissions (hostScopePatterns ['a']) 0
          ['h', 't', 't', 'p', ':', '/', '/', 'a', '/'] []) = 1 ∧
      ¬((1 : Int) ≤ 0) := by
  refine ⟨by decide, by decide⟩

/-- C8 amended: with the render pass enabled, the number of `render`
records is at most the effective budget: the configured budget when it is
positive, and 6 when the configured budget is zero or negative (the
coercion applied by `StartRenderManager`). -/
theorem c8_render_budget_amended (pats : List Pattern) (budget : Int)
    (startUrl : Chars) (queued : List Chars) :
    countKind "render" (startRenderEmissions pats budget startUrl queued) ≤
      (if budget ≤ 0 then 6 else budget.toNat) := by
  calc countKind "render" (startRenderEmissions pats budget startUrl queued)
      ≤ (startRenderEmissions pats budget startUrl queued).length :=
        List.length_filter_le _ _
    _ ≤ _ := renderLoop_length_le pats _ _ _

/-! ## Claim C9: feedLinkfinder dedupes on the lowercased raw string -/

theorem feedLinkfinder_emits_of_parse (pats : List Pattern)
    {seen : List Chars} {raw : Chars} {abs : URL}
    (hdup : dupMember seen raw = false) (hparse : parseURL raw = some abs) :
    (feedLinkfinder pats seen raw).emits =
        [⟨"javascript", canonicalizeURL abs, 0, 0⟩] ∧
      (feedLinkfinder pats seen raw).seen = lowerChars raw :: seen := by
  simp only [feedLinkfinder, hdup, Bool.false_eq_true, if_false, hparse]
  split <;> simp

theorem feedLinkfinder_emits_of_dup {pats : List Pattern}
    {seen : List Chars} {raw : Chars} (hdup : dupMember seen raw = true) :
    feedLinkfinder pats seen raw = ⟨seen, [], []⟩ := by
  simp [feedLinkfinder, hdup]

/-- C9: `feedLinkfinder` dedupes on the lowercased raw argument before
parsing and canonicalization: two calls whose raw arguments agree after
lowercasing produce exactly one `javascript` emission, while two calls
whose raw arguments differ after lowercasing each emit their own
`javascript` record even when they canonicalize to the same URL. -/
theorem c9_feed_dedupe_raw (pats : List Pattern) (a b : Chars)
    (abs1 abs2 : URL) :
    (lowerChars a = lowerChars b → parseURL a = some abs1 →
        countKind "javascript" (runFeed pats [] [a, b]) = 1) ∧
      (lowerChars a ≠ lowerChars b → parseURL a = some abs1 →
        parseURL b = some abs2 →
        canonicalizeURL abs1 = canonicalizeURL abs2 →
        countKind "javascript" (runFeed pats [] [a, b]) = 2) := by
  have hdupa : dupMember [] a = false := by simp [dupMember]
  constructor
  · intro hlow hpa
    obtain ⟨he1, hs1⟩ := feedLinkfinder_emits_of_parse pats hdupa hpa
    have hdupb : dupMember (lowerChars a :: []) b = true := by
      simp [dupMember, hlow]
    simp [runFeed, he1, hs1, feedLinkfinder_emits_of_dup hdupb, countKind]
  · intro hlow hpa hpb _
    obtain ⟨he1, hs1⟩ := feedLinkfinder_emits_of_parse pats hdupa hpa
    have hdupb : dupMember (lowerChars a :: []) b = false := by
      simp [dupMember]
      exact fun h => hlow h.symm
    obtain ⟨he2, _⟩ := feedLinkfinder_emits_of_parse pats hdupb hpb
    simp [runFeed, he1, hs1, he2, countKind]

/-- Witness for C9: same URL differing in case dedupes to one emission;
the same URL with and without a fragment (equal after canonicalization)
emits twice. -/
theorem c9_feed_dedupe_raw_witness :
    countKind "javascript" (runFeed [] []
        ["https://A.test/app.JS".toList, "https://a.test/app.js".toList]) = 1 ∧
      countKind "javascript" (runFeed [] []
        ["https://a.test/app.js".toList,
         "https://a.test/app.js#f".toList]) = 2 := by
  constructor
  · exact (c9_feed_dedupe_raw [] "https://A.test/app.JS".toList
        "https://a.test/app.js".toList
        ⟨httpsChars, "A.test".toList, none, "/app.JS".toList, none, none⟩
        ⟨httpsChars, "A.test".toList, none, "/app.JS".toList, none, none⟩).1
      (by decide) (by decide)
  · exact (c9_feed_dedupe_raw [] "https://a.test/app.js".toList
        "https://a.test/app.js#f".toList
        ⟨httpsChars, "a.test".toList, none, "/app.js".toList, none, none⟩
        ⟨httpsChars, "a.test".toList, none, "/app.js".toList, none,
          some ['f']⟩).2
      (by decide) (by decide) (by decide) (by decide)

/-! ## Claim C10: subdomain emissions pass through CleanSubdomain -/

theorem findSubdomainsEmit_mem {subs : List Chars} :
    ∀ {subSet : List Chars} {e : Emission},
      e ∈ (findSubdomainsEmit subSet subs).2 →
      e.kind = "subdomains" ∧ e.output ∈ subs := by
  induction subs with
  | nil => intro subSet e h; simp [findSubdomainsEmit] at h
  | cons sub rest ih =>
    intro subSet e h
    simp only [findSubdomainsEmit] at h
    split at h
    · obtain ⟨hk, hm⟩ := ih h
      exact ⟨hk, List.mem_cons_of_mem _ hm⟩
    · rcases List.mem_cons.mp h with h | h
      · subst h
        exact ⟨rfl, List.mem_cons_self _ _⟩
      · obtain ⟨hk, hm⟩ := ih h
        exact ⟨hk, List.mem_cons_of_mem _ hm⟩

/-- C10: every value emitted with kind `subdomains` (by `findSubdomains`,
the sole producer of that kind, fed by `GetSubdomains`) is the image under
`CleanSubdomain` of some regex match — `CleanSubdomain` being the chain:
lowercase, trim whitespace, strip a leading `*.`, strip leading runs of
the residues 20/25/2b/2f/3d/3a/40, trim surrounding `-`, drop a remaining
leading dot. -/
theorem c10_subdomains_cleaned (source domain : Chars)
    (subSet : List Chars) (e : Emission)
    (h : e ∈ (findSubdomains subSet source domain).2) :
    e.kind = "subdomains" ∧
      ∃ m ∈ subFindAll domain source, e.output = CleanSubdomain m := by
  obtain ⟨hk, hm⟩ := findSubdomainsEmit_mem h
  refine ⟨hk, ?_⟩
  simp only [GetSubdomains] at hm
  obtain ⟨m, hmem, hout⟩ := List.mem_map.mp hm
  exact ⟨m, hmem, hout.symm⟩

/-- Witness for C10 on a concrete page body and domain. -/
theorem c10_subdomains_cleaned_witness :
    ∃ m ∈ subFindAll "example.com".toList
        "see *.api.example.com here".toList,
      ("api.example.com".toList : Chars) = CleanSubdomain m :=
  (c10_subdomains_cleaned "see *.api.example.com here".toList
      "example.com".toList []
      ⟨"subdomains", "api.example.com".toList, 0, 0⟩ (by decide)).2

/-! ## Claim C7: the un-minified counterpart of .min.js assets -/

theorem containsSub_of_isSuffixOf {s sub : Chars}
    (h : sub.isSuffixOf s = true) : containsSub s sub = true := by
  rw [containsSub, List.any_eq_true]
  refine ⟨sub, ?_, ?_⟩
  · exact (List.mem_tails sub s).mpr (List.isSuffixOf_iff_suffix.mp h)
  · exact List.isPrefixOf_iff_prefix.mpr (List.prefix_refl sub)

/-- C7 counterexample: the claim says the un-minified counterpart is
fetched iff the URL ends in `.min.js`, but the code tests
`strings.Contains`: an in-scope script URL with `.min.js` mid-string (here
followed by a query) does not end in `.min.js`, yet its counterpart
(`.min.js` replaced by `.js`) is additionally visited. -/
theorem c7_min_js_counterexample :
    (feedLinkfinder (hostScopePatterns "a.test".toList) []
        "https://a.test/app.min.js?v=1".toList).visits =
      ["https://a.test/app.js?v=1".toList,
       "https://a.test/app.min.js?v=1".toList] ∧
      minJsChars.isSuffixOf "https://a.test/app.min.js?v=1".toList =
        false := by
  refine ⟨by decide, by decide⟩

/-- C7 amended: for an in-scope, non-duplicate script asset fed to
`feedLinkfinder`, the un-minified counterpart — every occurrence of
`.min.js` in the canonical URL replaced by `.js` — is additionally visited
iff the canonical URL merely contains `.min.js`; ending in `.min.js` is a
sufficient but not necessary condition. -/
theorem c7_min_js_amended (pats : List Pattern) (seen : List Chars)
    (raw : Chars) (abs : URL) (hdup : dupMember seen raw = false)
    (hparse : parseURL raw = some abs)
    (hscope : InScope abs pats = true) :
    ((feedLinkfinder pats seen raw).visits =
        (if containsSub (canonicalizeURL abs) minJsChars then
          [replaceAll (canonicalizeURL abs) minJsChars dotJsChars]
         else []) ++ [canonicalizeURL abs]) ∧
      (minJsChars.isSuffixOf (canonicalizeURL abs) = true →
        containsSub (canonicalizeURL abs) minJsChars = true) := by
  constructor
  · simp only [feedLinkfinder, hdup, Bool.false_eq_true, if_false, hparse,
      hscope, if_true]
  · exact containsSub_of_isSuffixOf

/-- Witness for the amended C7 at a URL that does end in `.min.js`. -/
theorem c7_min_js_amended_witness :
    (feedLinkfinder (hostScopePatterns "a.test".toList) []
        "https://a.test/x.min.js".toList).visits =
      (if containsSub "https://a.test/x.min.js".toList minJsChars then
        [replaceAll "https://a.test/x.min.js".toList minJsChars dotJsChars]
       else []) ++ ["https://a.test/x.min.js".toList] := by
  have h := (c7_min_js_amended (hostScopePatterns "a.test".toList) []
    "https://a.test/x.min.js".toList
    ⟨httpsChars, "a.test".toList, none, "/x.min.js".toList, none, none⟩
    (by decide) (by decide) (by decide)).1
  simpa using h

/-! ## Claim C5: disallowed-by-extension classification -/

theorem toLower_eq_dot {c : Char} (h : c.toLower = '.') : c = '.' := by
  by_cases hr : c.toNat ≥ 65 ∧ c.toNat ≤ 90
  · exfalso
    have h1 : c.toLower = Char.ofNat (c.toNat + 32) := by
      simp [Char.toLower, hr]
    rw [h1] at h
    have hv : (c.toNat + 32).isValidChar := Or.inl (by omega)
    have h2 := congrArg Char.toNat h
    have h3 : (Char.ofNat (c.toNat + 32)).toNat = c.toNat + 32 := by
      rw [Char.ofNat, dif_pos hv]
      rfl
    rw [h3] at h2
    have h4 : ('.' : Char).toNat = 46 := by decide
    omega
  · have h1 : c.toLower = c := by simp [Char.toLower, hr]
    rw [h1] at h
    exact h

/-- If the lowercased path ends in `.` followed by one of the extensions,
the full URL string matches `disallowedExtRE` (the path is followed there
by `?`, `#` or the end of the string). -/
theorem disallowedExtMatch_of_spec {u : URL}
    (h : specDisallowedByExt u = true) :
    disallowedExtMatch (urlString u) = true := by
  rw [specDisallowedByExt, List.any_eq_true] at h
  obtain ⟨e, he, hsuf⟩ := h
  obtain ⟨a, ha⟩ := List.isSuffixOf_iff_suffix.mp hsuf
  rw [lowerChars] at ha
  obtain ⟨a0, r0, hpath, _, hr0⟩ := List.append_eq_map_iff.mp ha
  obtain ⟨c0, e0, hr0eq, hc0, he0⟩ := List.map_eq_cons_iff.mp hr0
  have hc0d : c0 = '.' := toLower_eq_dot hc0
  subst hc0d
  have hlen : e.length = e0.length := by rw [← he0]; simp
  rw [disallowedExtMatch, List.any_eq_true]
  refine ⟨'.' :: (e0 ++ (queryStr u ++ fragmentStr u)), ?_, ?_⟩
  · refine (List.mem_tails _ _).mpr
      ⟨u.scheme ++ schemeSep ++ hostPort u ++ a0, ?_⟩
    rw [urlString, hpath, hr0eq]
    simp [List.append_assoc]
  · simp only [disallowedAt, Bool.and_eq_true, decide_eq_true_eq]
    refine ⟨by trivial, List.any_eq_true.mpr ⟨e, he, ?_⟩⟩
    rw [hlen, List.take_left e0 (queryStr u ++ fragmentStr u),
      List.drop_left e0 (queryStr u ++ fragmentStr u)]
    simp only [Bool.and_eq_true, decide_eq_true_eq]
    refine ⟨he0, ?_⟩
    rcases hq : u.query with - | q
    · rcases hf : u.fragment with - | f
      · simp [queryStr, fragmentStr, hq, hf, extSepOk]
      · simp [queryStr, fragmentStr, hq, hf, extSepOk]
    · simp [queryStr, hq, extSepOk]

/-- C5 counterexample: the unanchored `disallowedExtRE` matches the full
URL string, so a URL whose query ends in `.css` is classified disallowed
even though its path suffix (`x`) is no static-asset extension — the
claimed `exactly when the path suffix matches` fails. -/
theorem c5_ext_counterexample :
    disallowedExtMatch (urlString
        ⟨httpChars, "a.test".toList, none, "/x".toList,
          some "a=.css".toList, none⟩) = true ∧
      specDisallowedByExt
        ⟨httpChars, "a.test".toList, none, "/x".toList,
          some "a=.css".toList, none⟩ = false := by
  refine ⟨by decide, by decide⟩

/-- C5 amended: a URL is classified disallowed-by-extension when the
unanchored pattern matches anywhere in its full string — a dot, one of the
fixed extensions (case-insensitively), then `?`, `#` or the end; the
claimed path-suffix condition is sufficient (the path is always followed
by `?`, `#` or the end in the URL string) but not necessary.  Every
resolved anchor/link href matching the pattern is neither emitted nor
requested. -/
theorem c5_ext_amended (u : URL) (pats : List Pattern)
    (urlSet : List Chars) (resolved : Chars) :
    (specDisallowedByExt u = true →
        disallowedExtMatch (urlString u) = true) ∧
      (disallowedExtMatch resolved = true →
        onAnchorHref pats urlSet resolved = ⟨urlSet, [], []⟩) := by
  refine ⟨disallowedExtMatch_of_spec, fun hdis => ?_⟩
  by_cases hne : resolved = []
  · simp [onAnchorHref, hne]
  · simp [onAnchorHref, hne, hdis]

/-- Witness for the amended C5: `/a.png` is classified disallowed, and an
anchor href resolving to a `.png` URL is dropped with no emission and no
visit. -/
theorem c5_ext_amended_witness :
    disallowedExtMatch (urlString
        ⟨httpChars, "a.test".toList, none, "/a.png".toList, none, none⟩) =
        true ∧
      onAnchorHref [] [] "https://a.test/file.png".toList = ⟨[], [], []⟩ :=
  ⟨(c5_ext_amended ⟨httpChars, "a.test".toList, none, "/a.png".toList,
      none, none⟩ [] [] []).1 (by decide),
   (c5_ext_amended ⟨httpChars, "a.test".toList, none, "/a.png".toList,
      none, none⟩ [] [] "https://a.test/file.png".toList).2 (by decide)⟩

/-! ## Claim C2: bare-domain auto-scope and emitted hosts -/

/-- C2 counterexample: under the auto scope for bare domain `example.com`,
`feedLinkfinder` on an off-domain CDN script still emits a `javascript`
record (the emission happens before the scope gate), and the record's
host is neither `example.com` nor a `.example.com` subdomain. -/
theorem c2_bare_domain_counterexample :
    (feedLinkfinder (autoScopePatterns "example.com".toList) []
        "https://cdn.other.net/lib.js".toList).emits =
      [⟨"javascript", "https://cdn.other.net/lib.js".toList, 0, 0⟩] ∧
      bareHostOk "example.com".toList
        (hostOfString "https://cdn.other.net/lib.js".toList) = false := by
  refine ⟨by decide, by decide⟩

/-- C2 amended: records emitted by the scope-checked `href` path are in
scope at emission time — every `href` emission of the `a`/`link` callback
comes from a parsed URL accepted by the active filters (for a bare-domain
target, the apex-plus-subdomains pattern) and prints its canonical form;
`javascript` (and `subdomains`/`aws`) records are emitted without the
scope check and may reference other hosts. -/
theorem c2_bare_domain_amended (pats : List Pattern) (urlSet : List Chars)
    (resolved : Chars) (e : Emission)
    (h : e ∈ (onAnchorHref pats urlSet resolved).emits) :
    ∃ abs, parseURL resolved = some abs ∧ InScope abs pats = true ∧
      e = ⟨"href", canonicalizeURL abs, 0, 0⟩ := by
  simp only [onAnchorHref] at h
  split_ifs at h with h1 h2
  · simp at h
  · simp at h
  · split at h
    · simp at h
    · next abs hparse =>
      split_ifs at h with hscope hdup
      · simp at h
      · refine ⟨abs, hparse, hscope, ?_⟩
        simpa using h
      · simp at h

/-- Witness for the amended C2: a subdomain href under the bare-domain
scope for `example.com`. -/
theorem c2_bare_domain_amended_witness :
    ∃ abs, parseURL "https://api.example.com/v1".toList = some abs ∧
      InScope abs (autoScopePatterns "example.com".toList) = true ∧
      (⟨"href", "https://api.example.com/v1".toList, 0, 0⟩ : Emission) =
        ⟨"href", canonicalizeURL abs, 0, 0⟩ :=
  c2_bare_domain_amended (autoScopePatterns "example.com".toList) []
    "https://api.example.com/v1".toList
    ⟨"href", "https://api.example.com/v1".toList, 0, 0⟩ (by decide)

end PathFinder
